import Mathlib

/-!
Verification of the duplicate-detection core of `duplicate_checker_optimized.py`
(record linkage for German person/address data).

Strings are modelled as `List Char`.  Python-level `NaN` / `None` field values
are modelled as `Option (List Char)` with `none` standing for a missing value.
The external libraries `rapidfuzz.fuzz.QRatio` and `cologne_phonetics.encode`
are treated as parameters (`sim`, `phon`) of the matching engine, exactly as
the source code treats them as black boxes.  `unidecode` and `str.lower` are
modelled on the character repertoire relevant to the data (ASCII plus the
German/Latin letters appearing in the source and its tests).
-/

namespace Dub

/-- Strings are lists of characters. -/
abbrev Str := List Char

/-- Python `\s` / `str.strip` whitespace (ASCII part of it). -/
def isPySpace (c : Char) : Bool :=
  c = ' ' || c = '\t' || c = '\n' || c = '\r' || c = Char.ofNat 11 || c = Char.ofNat 12

/-- ASCII lower-case letter `[a-z]`. -/
def isAsciiLower (c : Char) : Bool :=
  97 ≤ c.toNat && c.toNat ≤ 122

/-- Association-list lookup keyed by characters. -/
def tlookup {α : Type} : List (Char × α) → Char → Option α
  | [], _ => none
  | (k, v) :: rest, c => if c = k then some v else tlookup rest c

/-- Lowering table for Python `str.lower` restricted to the modelled repertoire:
the 26 ASCII capitals plus the capital umlauts. -/
def lowerPairs : List (Char × Char) :=
  [('A','a'),('B','b'),('C','c'),('D','d'),('E','e'),('F','f'),('G','g'),
   ('H','h'),('I','i'),('J','j'),('K','k'),('L','l'),('M','m'),('N','n'),
   ('O','o'),('P','p'),('Q','q'),('R','r'),('S','s'),('T','t'),('U','u'),
   ('V','v'),('W','w'),('X','x'),('Y','y'),('Z','z'),
   ('Ä','ä'),('Ö','ö'),('Ü','ü'),('É','é'),('È','è'),('À','à')]

/-- One character of Python `str.lower`. -/
def pyLowerChar (c : Char) : Char :=
  (tlookup lowerPairs c).getD c

/-- Python `str.lower` on a string. -/
def pyLower (l : Str) : Str := l.map pyLowerChar

/-- Transliteration table for `unidecode` on the modelled non-ASCII letters.
All images are plain ASCII. -/
def udPairs : List (Char × Str) :=
  [('ü',['u']),('ä',['a']),('ö',['o']),('ß',['s','s']),
   ('é',['e']),('è',['e']),('ê',['e']),('à',['a']),('á',['a']),
   ('â',['a']),('ç',['c']),('ñ',['n']),('í',['i']),('ó',['o']),('ú',['u'])]

/-- `unidecode` of one character: ASCII characters map to themselves, the
modelled accented letters to their ASCII foldings, everything else to the
empty string (as `unidecode` does for unmapped code points). -/
def unidecodeChar (c : Char) : Str :=
  if c.toNat < 128 then [c] else (tlookup udPairs c).getD []

/-- `unidecode` on a string. -/
def unidecodeStr (l : Str) : Str := l.flatMap unidecodeChar

/-- Python `str.replace` where the pattern is a single character. -/
def replChar (c : Char) (r : Str) (l : Str) : Str :=
  l.flatMap (fun x => if x = c then r else [x])

/-- `re.sub(r"\s+", " ", ·)`: collapse every maximal whitespace run to a
single blank. -/
def collapseWs : Str → Str
  | [] => []
  | [c] => if isPySpace c then [' '] else [c]
  | a :: b :: t =>
    if isPySpace a then
      (if isPySpace b then collapseWs (b :: t) else ' ' :: collapseWs (b :: t))
    else a :: collapseWs (b :: t)

/-- Drop the longest run of `p`-characters at the end of the list. -/
def dropEndWhile (p : Char → Bool) (l : Str) : Str :=
  l.foldr (fun c r => if p c ∧ r = [] then [] else c :: r) []

/-- Python `str.strip()`. -/
def pyStrip (l : Str) : Str :=
  dropEndWhile isPySpace (l.dropWhile isPySpace)

/-- `OptimizedFuzzyMatcher.normalize_name`: strip, lower, `ß→ss`,
`ü→ue`, `ä→ae`, `ö→oe`, unidecode, collapse whitespace and strip. -/
def normalize_name (x : Option Str) : Str :=
  match x with
  | none => []
  | some s =>
    let s := pyLower (pyStrip s)
    let s := replChar 'ß' ['s','s'] s
    let s := replChar 'ü' ['u','e'] s
    let s := replChar 'ä' ['a','e'] s
    let s := replChar 'ö' ['o','e'] s
    let s := unidecodeStr s
    pyStrip (collapseWs s)

/-- Python `str.zfill`: left-pad with zeros to length `n`. -/
def zfill (n : Nat) (l : Str) : Str :=
  if l.length < n then List.replicate (n - l.length) '0' ++ l else l

/-- `VectorizedAddressNormalizer.normalize_plz_vectorized` on one value:
fill missing with the empty string, keep only digits, zero-pad to five,
truncate to five. -/
def normalize_plz (x : Option Str) : Str :=
  ((zfill 5 ((x.getD []).filter Char.isDigit)).take 5)

/-- `re.sub("str.$", "strasse", ·)` — note the unescaped regex dot in the
source: the pattern is `s`,`t`,`r` followed by ANY character, at the end. -/
def replStrDot (l : Str) : Str :=
  match l.reverse with
  | c :: 'r' :: 't' :: 's' :: rest =>
    if c = '\n' then l else rest.reverse ++ ['s','t','r','a','s','s','e']
  | _ => l

/-- `re.sub(pat ++ "$", rep, ·)` for a literal pattern. -/
def replSuffixLit (pat rep : Str) (l : Str) : Str :=
  if pat.isSuffixOf l then l.take (l.length - pat.length) ++ rep else l

/-- `re.sub(r"\s+\d+[a-z]*$", "", ·)`: strip a trailing house number. -/
def stripHouseEnd (l : Str) : Str :=
  let r := l.reverse
  let r1 := r.dropWhile isAsciiLower
  if (r1.takeWhile Char.isDigit) = [] then l
  else
    let r2 := r1.dropWhile Char.isDigit
    if (r2.takeWhile isPySpace) = [] then l
    else (r2.dropWhile isPySpace).reverse

/-- `re.sub(r"^\d+[a-z]*\s+", "", ·)`: strip a leading house number. -/
def stripHouseStart (l : Str) : Str :=
  if (l.takeWhile Char.isDigit) = [] then l
  else
    let r1 := l.dropWhile Char.isDigit
    let r2 := r1.dropWhile isAsciiLower
    if (r2.takeWhile isPySpace) = [] then l
    else r2.dropWhile isPySpace

/-- The suffix-canonicalization loop of `normalize_street_vectorized`,
applied in the insertion order of the Python dict. -/
def streetSuffixSteps (l : Str) : Str :=
  let l := replStrDot l
  let l := replSuffixLit ['s','t','r','a','ß','e'] ['s','t','r','a','s','s','e'] l
  let l := replSuffixLit ['s','t','r'] ['s','t','r','a','s','s','e'] l
  let l := replSuffixLit ['w','e','g'] ['w','e','g'] l
  let l := replSuffixLit ['a','l','l','e','e'] ['a','l','l','e','e'] l
  let l := replSuffixLit ['p','l','a','t','z'] ['p','l','a','t','z'] l
  let l := replSuffixLit ['g','a','s','s','e'] ['g','a','s','s','e'] l
  replSuffixLit ['r','i','n','g'] ['r','i','n','g'] l

/-- `VectorizedAddressNormalizer.normalize_street_vectorized` on one value:
fill missing with empty, strip, lower, canonicalize suffixes, strip house
numbers, `ß→ss`, unidecode, drop everything outside `[a-z\s]`, collapse
whitespace and strip. -/
def normalize_street (x : Option Str) : Str :=
  let s := pyLower (pyStrip (x.getD []))
  let s := streetSuffixSteps s
  let s := stripHouseStart (stripHouseEnd s)
  let s := replChar 'ß' ['s','s'] s
  let s := unidecodeStr s
  let s := s.filter (fun c => isAsciiLower c || isPySpace c)
  pyStrip (collapseWs s)

/-! ## Business rules (`FastBusinessRules`) -/

/-- Leftmost window of four consecutive digits, as `re.search(r"(\d{4})")`
finds it; `none` when no such window exists. -/
def findYear4 : Str → Option Nat
  | a :: b :: c :: d :: t =>
    if a.isDigit && b.isDigit && c.isDigit && d.isDigit then
      some ((a.toNat - 48) * 1000 + (b.toNat - 48) * 100 +
            (c.toNat - 48) * 10 + (d.toNat - 48))
    else findYear4 (b :: c :: d :: t)
  | _ => none

/-- `FastBusinessRules.extract_year`: `None`/empty input gives `none`,
otherwise the first four-digit substring of the stripped string. -/
def extract_year (x : Option Str) : Option Nat :=
  match x with
  | none => none
  | some s =>
    let t := pyStrip s
    if t = [] then none else findYear4 t

/-- Numeric value of a digit string. -/
def natOfDigits (l : Str) : Nat :=
  l.foldl (fun acc c => acc * 10 + (c.toNat - 48)) 0

/-- Model of `int(float(s))` as used on `Jahrgang` values: a run of digits
with an optional decimal point and fractional digits parses to the integer
part; any other shape fails (`None`). -/
def pyFloatInt (t : Str) : Option Nat :=
  let ip := t.takeWhile Char.isDigit
  let rest := t.drop ip.length
  if ip = [] then none
  else if rest = [] then some (natOfDigits ip)
  else match rest with
    | '.' :: fr => if fr.all Char.isDigit then some (natOfDigits ip) else none
    | _ => none

/-- Parsing of a `Jahrgang` field: missing or blank gives `none`. -/
def parseJahrgang (x : Option Str) : Option Nat :=
  match x with
  | none => none
  | some s =>
    let t := pyStrip s
    if t = [] then none else pyFloatInt t

/-- Python truthiness of an optional integer: `None` and `0` are falsy. -/
def optTruthy : Option Nat → Bool
  | none => false
  | some n => n != 0

/-- `FastBusinessRules.check_date_rule`: the effective year is the
birth-date year when truthy, else the parsed `Jahrgang`; pass when both
effective years are truthy and equal, or both are `None`. -/
def check_date_rule (ga ja gb jb : Option Str) : Bool :=
  let ya := extract_year ga
  let yb := extract_year gb
  let jga := parseJahrgang ja
  let jgb := parseJahrgang jb
  let ea := if optTruthy ya then ya else jga
  let eb := if optTruthy yb then yb else jgb
  if optTruthy ea && optTruthy eb then ea = eb
  else if ea = none && eb = none then true
  else false

/-- Field access as the rules do it: `NaN` becomes the empty string,
otherwise strip and lower. -/
def normField (x : Option Str) : Str :=
  match x with
  | none => []
  | some s => pyLower (pyStrip s)

/-- `FastBusinessRules.check_zweitname`: compound-surname aware second-name
rule on stripped, lower-cased fields. -/
def check_zweitname (name_a name2_a name_b name2_b : Option Str) : Bool :=
  let na := normField name_a
  let n2a := normField name2_a
  let nb := normField name_b
  let n2b := normField name2_b
  if n2a ≠ [] ∧ n2b ≠ [] then n2a = n2b
  else if n2a = [] ∧ n2b = [] then true
  else if n2a ≠ [] ∧ n2b = [] then n2a.isSuffixOf nb
  else n2b.isSuffixOf na

/-! ## Records, blocking and the two-stage match engine -/

/-- One input record.  `none` models a pandas `NaN` / missing value. -/
structure Rec where
  Vorname : Option Str
  Name : Option Str
  Name2 : Option Str
  Strasse : Option Str
  HausNummer : Option Str
  Plz : Option Str
  Ort : Option Str
  Geburtstag : Option Str
  Jahrgang : Option Str
deriving DecidableEq, Repr

/-- `get_cologne_phonetic`, parametrized by the external coder `phon`:
missing or blank names yield the empty code, otherwise the coder is applied
to the stripped name. -/
def phonCode (phon : Str → Str) (x : Option Str) : Str :=
  match x with
  | none => []
  | some s => if pyStrip s = [] then [] else phon (pyStrip s)

/-- `OptimizedBlockingStrategy.create_blocking_keys_vectorized` on one
record. -/
def standardBlockingKey (r : Rec) : Str :=
  let p := normalize_plz r.Plz
  let s := normalize_street r.Strasse
  if p ≠ [] ∧ s ≠ [] then p ++ '_' :: s
  else if p ≠ [] then ['p','l','z','_','o','n','l','y','_'] ++ p
  else if s ≠ [] then ['s','t','r','e','e','t','_','o','n','l','y','_'] ++ s
  else ['n','o','_','a','d','d','r','e','s','s']

/-- `PhoneticBlockingStrategy.create_blocking_keys_vectorized` on one
record: phonetic fallback key exactly for records whose standard key is
`"no_address"`. -/
def phoneticBlockingKey (phon : Str → Str) (r : Rec) : Str :=
  let k := standardBlockingKey r
  if k = ['n','o','_','a','d','d','r','e','s','s'] then
    ['p','h','o','n','_'] ++ phonCode phon r.Vorname ++ '_' :: phonCode phon r.Name
  else k

/-- The blocking key as `UltraFastDuplicateChecker` computes it, depending
on the `use_phonetic` toggle. -/
def blockingKey (phon : Str → Str) (usePhonetic : Bool) (r : Rec) : Str :=
  if usePhonetic then phoneticBlockingKey phon r else standardBlockingKey r

/-- Emitted match kinds (`match_type` strings of the source). -/
inductive MKind where
  | exact_normal | exact_swapped
  | fuzzy_normal | fuzzy_swapped
  | phonetic_assisted_normal | phonetic_assisted_swapped
deriving DecidableEq, Repr

/-- One emitted match: the two original row indices, the confidence and
the kind. -/
structure PyMatch where
  record_a_idx : Nat
  record_b_idx : Nat
  confidence_score : ℚ
  match_type : MKind
deriving DecidableEq, Repr

/-- Address-field access in `process_block_worker`:
`str(record.get(field, "")).strip().lower()` — note that a pandas `NaN`
stringifies to `"nan"`, not to the empty string. -/
def addrVal (x : Option Str) : Str :=
  match x with
  | none => ['n','a','n']
  | some s => pyLower (pyStrip s)

/-- The four address field pairs considered for the address ratio. -/
def addrPairs (a b : Rec) : List (Str × Str) :=
  [(addrVal a.Strasse, addrVal b.Strasse),
   (addrVal a.HausNummer, addrVal b.HausNummer),
   (addrVal a.Plz, addrVal b.Plz),
   (addrVal a.Ort, addrVal b.Ort)]

/-- Number of address fields non-empty on both sides. -/
def addrConsidered (a b : Rec) : Nat :=
  ((addrPairs a b).filter (fun p => p.1 ≠ [] ∧ p.2 ≠ [])).length

/-- Number of address fields non-empty on both sides and equal. -/
def addrAgree (a b : Rec) : Nat :=
  ((addrPairs a b).filter (fun p => p.1 ≠ [] ∧ p.2 ≠ [] ∧ p.1 = p.2)).length

/-- `address_ratio = address_matches / max(total_address_fields, 1)`. -/
def addrFrac (a b : Rec) : ℚ :=
  (addrAgree a b : ℚ) / (max (addrConsidered a b) 1 : ℚ)

/-- Result of `OptimizedFuzzyMatcher.compare_names`. -/
structure NameScores where
  normal_score : ℚ
  swapped_score : ℚ
  best_score : ℚ
  is_swapped : Bool
deriving Repr

/-- `OptimizedFuzzyMatcher.compare_names`, parametrized by the similarity
`sim` (the model of `fuzz.QRatio(·,·)/100`). -/
def compare_names (sim : Str → Str → ℚ) (va na vb nb : Option Str) : NameScores :=
  let v_a := normalize_name va
  let n_a := normalize_name na
  let v_b := normalize_name vb
  let n_b := normalize_name nb
  if v_a = [] ∨ n_a = [] ∨ v_b = [] ∨ n_b = [] then ⟨0, 0, 0, false⟩
  else
    let ns := (sim v_a v_b + sim n_a n_b) / 2
    let ss := (sim v_a n_b + sim n_a v_b) / 2
    ⟨ns, ss, max ns ss, decide (ns < ss)⟩

/-- Stage 1 of `process_block_worker` on one candidate pair: business
rules, then exact (normal or swapped) equality of normalized names; the
resulting confidence and kind, or `none` if the pair yields no exact
match.  Stage 1 applies NO confidence-threshold check. -/
def stage1Hit (a b : Rec) : Option (ℚ × MKind) :=
  if ¬ check_zweitname a.Name a.Name2 b.Name b.Name2 then none
  else if ¬ check_date_rule a.Geburtstag a.Jahrgang b.Geburtstag b.Jahrgang then none
  else
    let v_a := normalize_name a.Vorname
    let n_a := normalize_name a.Name
    let v_b := normalize_name b.Vorname
    let n_b := normalize_name b.Name
    if v_a = [] ∨ n_a = [] ∨ v_b = [] ∨ n_b = [] then none
    else if v_a = v_b ∧ n_a = n_b then
      some (90 + addrFrac a b * 10, MKind.exact_normal)
    else if v_a = n_b ∧ n_a = v_b then
      some (85 + addrFrac a b * 10, MKind.exact_swapped)
    else none

/-- The stage-2 acceptance decision of `process_block_worker`: fuzzy
comparison with the phonetic fallback on the borderline band `[0.60, ft)`.
Returns the effective best score, the swap flag and the phonetic-assisted
flag, or `none` when the pair is rejected. -/
def stage2Decision (sim : Str → Str → ℚ) (phon : Str → Str)
    (fuzzy_threshold : ℚ) (a b : Rec) : Option (ℚ × Bool × Bool) :=
  let cn := compare_names sim a.Vorname a.Name b.Vorname b.Name
  if cn.best_score < fuzzy_threshold then
    if 60 / 100 ≤ cn.best_score then
      let pva := phonCode phon a.Vorname
      let pna := phonCode phon a.Name
      let pvb := phonCode phon b.Vorname
      let pnb := phonCode phon b.Name
      let pmNormal := pva ≠ [] ∧ pna ≠ [] ∧ pvb ≠ [] ∧ pnb ≠ [] ∧
        pva = pvb ∧ pna = pnb
      let pmSwapped := pva ≠ [] ∧ pna ≠ [] ∧ pvb ≠ [] ∧ pnb ≠ [] ∧
        pva = pnb ∧ pna = pvb
      if pmNormal ∨ pmSwapped then some (72 / 100, decide pmSwapped, true)
      else none
    else none
  else some (cn.best_score, cn.is_swapped, false)

/-- Stage 2 of `process_block_worker` on one candidate pair: business
rules, fuzzy comparison, phonetic fallback on the borderline band, fuzzy
confidence capped at 95, and the final threshold check. -/
def stage2Hit (sim : Str → Str → ℚ) (phon : Str → Str)
    (confidence_threshold fuzzy_threshold : ℚ) (a b : Rec) : Option (ℚ × MKind) :=
  if ¬ check_zweitname a.Name a.Name2 b.Name b.Name2 then none
  else if ¬ check_date_rule a.Geburtstag a.Jahrgang b.Geburtstag b.Jahrgang then none
  else
    match stage2Decision sim phon fuzzy_threshold a b with
    | none => none
    | some bsa =>
      let best := bsa.1
      let sw := bsa.2.1
      let assisted := bsa.2.2
      let r := addrFrac a b
      let ck : ℚ × MKind :=
        if assisted then
          if sw then (70 + r * 10, MKind.phonetic_assisted_swapped)
          else (72 + r * 10, MKind.phonetic_assisted_normal)
        else
          if sw then (min (best * 50 + r * 30 - 5) 95, MKind.fuzzy_swapped)
          else (min (best * 50 + r * 30) 95, MKind.fuzzy_normal)
      if confidence_threshold ≤ ck.1 then some ck else none

/-- All position pairs `(i, j)` with `i < j` of a block, in the nested-loop
order of the source, each paired with its record and original row index. -/
def blockPairs (block : List (Nat × Rec)) :
    List ((Nat × Nat × Rec) × (Nat × Nat × Rec)) :=
  let e := block.enum.map (fun p => (p.1, p.2.1, p.2.2))
  e.flatMap (fun x => (e.filter (fun y => x.1 < y.1)).map (fun y => (x, y)))

/-- Block positions consumed by stage 1 (`matched_indices`). -/
def stage1Consumed (block : List (Nat × Rec)) : List Nat :=
  (blockPairs block).flatMap (fun p =>
    if (stage1Hit p.1.2.2 p.2.2.2).isSome then [p.1.1, p.2.1] else [])

/-- `process_block_worker`: stage-1 exact matches over all pairs, then
stage-2 fuzzy/phonetic matches over pairs of unconsumed positions.  A
block is a list of `(original row index, record)` pairs. -/
def process_block_worker (sim : Str → Str → ℚ) (phon : Str → Str)
    (confidence_threshold fuzzy_threshold : ℚ)
    (block : List (Nat × Rec)) : List PyMatch :=
  if block.length < 2 then []
  else
    let pairs := blockPairs block
    let stage1 := pairs.filterMap (fun p =>
      (stage1Hit p.1.2.2 p.2.2.2).map (fun ck =>
        PyMatch.mk p.1.2.1 p.2.2.1 ck.1 ck.2))
    let consumed := stage1Consumed block
    let stage2 := pairs.filterMap (fun p =>
      if p.1.1 ∈ consumed ∨ p.2.1 ∈ consumed then none
      else (stage2Hit sim phon confidence_threshold fuzzy_threshold
              p.1.2.2 p.2.2.2).map (fun ck =>
        PyMatch.mk p.1.2.1 p.2.2.1 ck.1 ck.2))
    stage1 ++ stage2

/-- `UltraFastDuplicateChecker.analyze_duplicates` after blocking: every
block is processed by `process_block_worker` and the per-block match lists
are concatenated in the order the block results arrive. -/
def analyze_duplicates (sim : Str → Str → ℚ) (phon : Str → Str)
    (confidence_threshold fuzzy_threshold : ℚ)
    (blocks : List (List (Nat × Rec))) : List PyMatch :=
  blocks.flatMap (process_block_worker sim phon confidence_threshold fuzzy_threshold)

/-- Checker configuration as built by `UltraFastDuplicateChecker.__init__`
(the default of `fuzzy_threshold` in the source is `0.8`). -/
structure CheckerConfig where
  fuzzy_threshold : ℚ
  use_parallel : Bool
  use_phonetic : Bool
deriving Repr

/-- `UltraFastDuplicateChecker.__init__` with its declared defaults. -/
def mkUltraFastDuplicateChecker
    (fuzzy_threshold : ℚ := 8 / 10) (use_parallel : Bool := true)
    (use_phonetic : Bool := true) : CheckerConfig :=
  ⟨fuzzy_threshold, use_parallel, use_phonetic⟩

/-- The CLI entry point `run_optimized_analysis.main` constructs the
checker passing `--fuzzy-threshold`, whose argparse default is `0.7`. -/
def cliDefaultChecker : CheckerConfig :=
  mkUltraFastDuplicateChecker (7 / 10)

/-! ## Idempotence development for the field normalizers -/

theorem tlookup_mem {α : Type} {ps : List (Char × α)} {c : Char} {v : α}
    (h : tlookup ps c = some v) : (c, v) ∈ ps := by
  induction ps with
  | nil => simp [tlookup] at h
  | cons p rest ih =>
    obtain ⟨k, w⟩ := p
    rw [tlookup] at h
    split at h
    case isTrue hc =>
      rw [Option.some.injEq] at h
      subst hc; subst h
      exact List.mem_cons_self _ _
    case isFalse hc =>
      exact List.mem_cons_of_mem _ (ih h)

theorem pyLowerChar_idem (c : Char) : pyLowerChar (pyLowerChar c) = pyLowerChar c := by
  unfold pyLowerChar
  cases h : tlookup lowerPairs c with
  | none => simp [h]
  | some d =>
    have hm : (c, d) ∈ lowerPairs := tlookup_mem h
    have hall : ∀ p ∈ lowerPairs, tlookup lowerPairs p.2 = none := by decide
    simp only [h, Option.getD_some]
    rw [hall (c, d) hm]
    rfl

/-- A character the name normalizer can output: plain ASCII and stable
under lowering. -/
def cleanChar (d : Char) : Prop := d.toNat < 128 ∧ pyLowerChar d = d

instance : DecidablePred cleanChar := fun d => by
  unfold cleanChar; infer_instance

theorem cleanChar_sp : cleanChar ' ' := by decide

theorem ud_clean {c : Char} (hc : pyLowerChar c = c) {d : Char}
    (hd : d ∈ unidecodeChar c) : cleanChar d := by
  unfold unidecodeChar at hd
  split at hd
  case isTrue h =>
    simp only [List.mem_singleton] at hd
    subst hd; exact ⟨h, hc⟩
  case isFalse h =>
    cases hl : tlookup udPairs c with
    | none => rw [hl] at hd; simp at hd
    | some v =>
      rw [hl] at hd
      simp only [Option.getD_some] at hd
      have hall : ∀ p ∈ udPairs, ∀ d ∈ p.2, cleanChar d := by decide
      exact hall (c, v) (tlookup_mem hl) d hd

theorem cleanChar_ud {d : Char} (h : cleanChar d) : unidecodeChar d = [d] := by
  unfold unidecodeChar; rw [if_pos h.1]

theorem cleanChar_ne_german {d : Char} (h : cleanChar d) :
    d ≠ 'ß' ∧ d ≠ 'ü' ∧ d ≠ 'ä' ∧ d ≠ 'ö' := by
  refine ⟨?_, ?_, ?_, ?_⟩ <;> rintro rfl <;> exact absurd h.1 (by decide)

theorem pyLower_eq_self {l : Str} (h : ∀ c ∈ l, pyLowerChar c = c) :
    pyLower l = l := by
  unfold pyLower
  induction l with
  | nil => rfl
  | cons a t ih =>
    simp only [List.map_cons]
    rw [h a (by simp), ih (fun c hc => h c (List.mem_cons_of_mem _ hc))]

theorem replChar_eq_self {c : Char} {r l : Str} (h : ∀ x ∈ l, x ≠ c) :
    replChar c r l = l := by
  unfold replChar
  induction l with
  | nil => rfl
  | cons a t ih =>
    simp only [List.flatMap_cons]
    rw [if_neg (h a (by simp)), ih (fun x hx => h x (List.mem_cons_of_mem _ hx))]
    rfl

theorem unidecode_eq_self {l : Str} (h : ∀ c ∈ l, unidecodeChar c = [c]) :
    unidecodeStr l = l := by
  unfold unidecodeStr
  induction l with
  | nil => rfl
  | cons a t ih =>
    simp only [List.flatMap_cons]
    rw [h a (by simp), ih (fun c hc => h c (List.mem_cons_of_mem _ hc))]
    rfl

theorem mem_pyLower_stable {l : Str} {c : Char} (h : c ∈ pyLower l) :
    pyLowerChar c = c := by
  unfold pyLower at h
  rw [List.mem_map] at h
  obtain ⟨x, _, rfl⟩ := h
  exact pyLowerChar_idem x

theorem mem_replChar {c : Char} {r l : Str} {x : Char} (h : x ∈ replChar c r l) :
    x ∈ r ∨ x ∈ l := by
  unfold replChar at h
  rw [List.mem_flatMap] at h
  obtain ⟨a, ha, hx⟩ := h
  by_cases hac : a = c
  · rw [if_pos hac] at hx; exact Or.inl hx
  · rw [if_neg hac] at hx
    simp only [List.mem_singleton] at hx
    subst hx; exact Or.inr ha

theorem mem_unidecode_clean {l : Str} (hl : ∀ c ∈ l, pyLowerChar c = c) {d : Char}
    (h : d ∈ unidecodeStr l) : cleanChar d := by
  unfold unidecodeStr at h
  rw [List.mem_flatMap] at h
  obtain ⟨a, ha, hd⟩ := h
  exact ud_clean (hl a ha) hd

/-- No string has two adjacent whitespace characters. -/
def noTwoSp : Str → Bool
  | a :: b :: t => (!(isPySpace a && isPySpace b)) && noTwoSp (b :: t)
  | _ => true

theorem noTwoSp_tail {a : Char} {t : Str} (h : noTwoSp (a :: t) = true) :
    noTwoSp t = true := by
  cases t with
  | nil => rfl
  | cons b t2 =>
    unfold noTwoSp at h
    exact (Bool.and_eq_true_iff.mp h).2

theorem noTwoSp_cons {x : Char} {m : Str} (hm : noTwoSp m = true)
    (h : ∀ c, m.head? = some c → ¬(isPySpace x = true ∧ isPySpace c = true)) :
    noTwoSp (x :: m) = true := by
  cases m with
  | nil => rfl
  | cons c t =>
    unfold noTwoSp
    rw [Bool.and_eq_true_iff]
    refine ⟨?_, hm⟩
    have hc := h c rfl
    by_cases h1 : isPySpace x = true
    · by_cases h2 : isPySpace c = true
      · exact absurd ⟨h1, h2⟩ hc
      · simp [Bool.eq_false_iff.mpr h2]
    · simp [Bool.eq_false_iff.mpr h1]

theorem mem_collapseWs {l : Str} {c : Char} (h : c ∈ collapseWs l) :
    c ∈ l ∨ c = ' ' := by
  induction l using collapseWs.induct with
  | case1 => simp [collapseWs] at h
  | case2 d hd =>
    rw [collapseWs, if_pos hd] at h
    simp only [List.mem_singleton] at h
    exact Or.inr h
  | case3 d hd =>
    rw [collapseWs, if_neg hd] at h
    exact Or.inl h
  | case4 a b t hs1 hs2 ih =>
    rw [collapseWs, if_pos hs1, if_pos hs2] at h
    rcases ih h with h2 | h2
    · exact Or.inl (List.mem_cons_of_mem _ h2)
    · exact Or.inr h2
  | case5 a b t hs1 hs2 ih =>
    rw [collapseWs, if_pos hs1, if_neg hs2] at h
    rcases List.mem_cons.mp h with h2 | h2
    · exact Or.inr h2
    · rcases ih h2 with h3 | h3
      · exact Or.inl (List.mem_cons_of_mem _ h3)
      · exact Or.inr h3
  | case6 a b t hs1 ih =>
    rw [collapseWs, if_neg hs1] at h
    rcases List.mem_cons.mp h with h2 | h2
    · exact Or.inl (h2 ▸ List.mem_cons_self a _)
    · rcases ih h2 with h3 | h3
      · exact Or.inl (List.mem_cons_of_mem _ h3)
      · exact Or.inr h3

theorem collapseWs_sp {l : Str} {c : Char} (h : c ∈ collapseWs l)
    (hc : isPySpace c = true) : c = ' ' := by
  induction l using collapseWs.induct with
  | case1 => simp [collapseWs] at h
  | case2 d hd =>
    rw [collapseWs, if_pos hd] at h
    simpa using h
  | case3 d hd =>
    rw [collapseWs, if_neg hd] at h
    simp only [List.mem_singleton] at h
    subst h; exact absurd hc hd
  | case4 a b t hs1 hs2 ih =>
    rw [collapseWs, if_pos hs1, if_pos hs2] at h
    exact ih h
  | case5 a b t hs1 hs2 ih =>
    rw [collapseWs, if_pos hs1, if_neg hs2] at h
    rcases List.mem_cons.mp h with h2 | h2
    · exact h2
    · exact ih h2
  | case6 a b t hs1 ih =>
    rw [collapseWs, if_neg hs1] at h
    rcases List.mem_cons.mp h with h2 | h2
    · subst h2; exact absurd hc hs1
    · exact ih h2

theorem collapseWs_cons_not_sp {b : Char} (hb : ¬ isPySpace b = true) (t : Str) :
    ∃ m, collapseWs (b :: t) = b :: m := by
  cases t with
  | nil => exact ⟨[], by rw [collapseWs, if_neg hb]⟩
  | cons c t2 => exact ⟨collapseWs (c :: t2), by rw [collapseWs, if_neg hb]⟩

theorem collapseWs_noTwo (l : Str) : noTwoSp (collapseWs l) = true := by
  induction l using collapseWs.induct with
  | case1 => rfl
  | case2 d hd => rw [collapseWs, if_pos hd]; rfl
  | case3 d hd => rw [collapseWs, if_neg hd]; rfl
  | case4 a b t hs1 hs2 ih => rw [collapseWs, if_pos hs1, if_pos hs2]; exact ih
  | case5 a b t hs1 hs2 ih =>
    rw [collapseWs, if_pos hs1, if_neg hs2]
    obtain ⟨m, hm⟩ := collapseWs_cons_not_sp hs2 t
    refine noTwoSp_cons ih ?_
    intro c hc
    rw [hm] at hc
    simp only [List.head?_cons, Option.some.injEq] at hc
    subst hc
    rintro ⟨-, h2⟩
    exact hs2 h2
  | case6 a b t hs1 ih =>
    rw [collapseWs, if_neg hs1]
    refine noTwoSp_cons ih ?_
    intro c _
    rintro ⟨h1, -⟩
    exact hs1 h1

theorem collapseWs_eq_self {l : Str}
    (h1 : ∀ c ∈ l, isPySpace c = true → c = ' ')
    (h2 : noTwoSp l = true) : collapseWs l = l := by
  induction l using collapseWs.induct with
  | case1 => rfl
  | case2 d hd => rw [collapseWs, if_pos hd, h1 d (by simp) hd]
  | case3 d hd => rw [collapseWs, if_neg hd]
  | case4 a b t hs1 hs2 ih =>
    exfalso
    unfold noTwoSp at h2
    rw [Bool.and_eq_true_iff] at h2
    have h3 := h2.1
    rw [hs1, hs2] at h3
    simp at h3
  | case5 a b t hs1 hs2 ih =>
    rw [collapseWs, if_pos hs1, if_neg hs2]
    rw [ih (fun c hc hsp => h1 c (List.mem_cons_of_mem _ hc) hsp) (noTwoSp_tail h2)]
    rw [h1 a (by simp) hs1]
  | case6 a b t hs1 ih =>
    rw [collapseWs, if_neg hs1]
    rw [ih (fun c hc hsp => h1 c (List.mem_cons_of_mem _ hc) hsp) (noTwoSp_tail h2)]

theorem noTwoSp_dropWhile (p : Char → Bool) {l : Str} (h : noTwoSp l = true) :
    noTwoSp (l.dropWhile p) = true := by
  induction l with
  | nil => rfl
  | cons a t ih =>
    rw [List.dropWhile_cons]
    split
    · exact ih (noTwoSp_tail h)
    · exact h

theorem noTwoSp_append_left {n t : Str} (h : noTwoSp (n ++ t) = true) :
    noTwoSp n = true := by
  induction n with
  | nil => rfl
  | cons a n2 ih =>
    cases n2 with
    | nil => rfl
    | cons b n3 =>
      rw [List.cons_append, List.cons_append] at h
      unfold noTwoSp at h ⊢
      rw [Bool.and_eq_true_iff] at h ⊢
      exact ⟨h.1, ih (by rw [List.cons_append]; exact h.2)⟩

theorem dwe_cons (p : Char → Bool) (a : Char) (l : Str) :
    dropEndWhile p (a :: l) =
      if p a ∧ dropEndWhile p l = [] then [] else a :: dropEndWhile p l := rfl

theorem dwe_append (p : Char → Bool) (l : Str) :
    ∃ t, dropEndWhile p l ++ t = l := by
  induction l with
  | nil => exact ⟨[], rfl⟩
  | cons a l2 ih =>
    rw [dwe_cons]
    split
    · exact ⟨a :: l2, rfl⟩
    · obtain ⟨t, ht⟩ := ih
      exact ⟨t, by rw [List.cons_append, ht]⟩

theorem dwe_idem (p : Char → Bool) (l : Str) :
    dropEndWhile p (dropEndWhile p l) = dropEndWhile p l := by
  induction l with
  | nil => rfl
  | cons a l2 ih =>
    rw [dwe_cons]
    split
    case isTrue => rfl
    case isFalse h =>
      rw [dwe_cons, ih]
      rw [if_neg h]

theorem mem_dwe {p : Char → Bool} {l : Str} {c : Char}
    (h : c ∈ dropEndWhile p l) : c ∈ l := by
  obtain ⟨t, ht⟩ := dwe_append p l
  rw [← ht]
  exact List.mem_append_left _ h

theorem mem_pyStrip {l : Str} {c : Char} (h : c ∈ pyStrip l) : c ∈ l := by
  unfold pyStrip at h
  exact (List.dropWhile_sublist isPySpace).mem (mem_dwe h)

theorem noTwoSp_pyStrip {l : Str} (h : noTwoSp l = true) :
    noTwoSp (pyStrip l) = true := by
  unfold pyStrip
  obtain ⟨t, ht⟩ := dwe_append isPySpace (l.dropWhile isPySpace)
  exact noTwoSp_append_left (by rw [ht]; exact noTwoSp_dropWhile _ h)

theorem pyStrip_strip (l : Str) : pyStrip (pyStrip l) = pyStrip l := by
  unfold pyStrip
  have h1 : List.dropWhile isPySpace
      (dropEndWhile isPySpace (l.dropWhile isPySpace)) =
      dropEndWhile isPySpace (l.dropWhile isPySpace) := by
    cases hn : dropEndWhile isPySpace (l.dropWhile isPySpace) with
    | nil => rfl
    | cons a t =>
      obtain ⟨s, hs⟩ := dwe_append isPySpace (l.dropWhile isPySpace)
      rw [hn] at hs
      have hw : l.dropWhile isPySpace ≠ [] := by
        rw [← hs]; simp
      have ha := List.head_dropWhile_not isPySpace l hw
      have h2 : (List.dropWhile isPySpace l).head? = some a := by
        rw [← hs]; rfl
      rw [List.head?_eq_head hw, Option.some.injEq] at h2
      rw [h2] at ha
      rw [List.dropWhile_cons, ha]
      simp
  rw [h1, dwe_idem]

/-- The umlaut-expansion chain of the name normalizer keeps every
character stable under lowering. -/
theorem replChain_stable {l : Str} (hl : ∀ c ∈ l, pyLowerChar c = c) {d : Char}
    (hd : d ∈ replChar 'ö' ['o','e'] (replChar 'ä' ['a','e']
      (replChar 'ü' ['u','e'] (replChar 'ß' ['s','s'] l)))) :
    pyLowerChar d = d := by
  rcases mem_replChar hd with h | hd2
  · simp only [List.mem_cons, List.not_mem_nil, or_false] at h
    rcases h with rfl | rfl <;> decide
  rcases mem_replChar hd2 with h | hd3
  · simp only [List.mem_cons, List.not_mem_nil, or_false] at h
    rcases h with rfl | rfl <;> decide
  rcases mem_replChar hd3 with h | hd4
  · simp only [List.mem_cons, List.not_mem_nil, or_false] at h
    rcases h with rfl | rfl <;> decide
  rcases mem_replChar hd4 with h | hd5
  · simp only [List.mem_cons, List.not_mem_nil, or_false] at h
    rcases h with rfl | rfl <;> decide
  exact hl d hd5

theorem normalize_name_some_eq (s : Str) :
    normalize_name (some s) =
      pyStrip (collapseWs (unidecodeStr (replChar 'ö' ['o','e']
        (replChar 'ä' ['a','e'] (replChar 'ü' ['u','e']
          (replChar 'ß' ['s','s'] (pyLower (pyStrip s)))))))) := rfl

/-- Every character of a normalized name is clean. -/
theorem normalize_name_clean {x : Option Str} {c : Char}
    (h : c ∈ normalize_name x) : cleanChar c := by
  cases x with
  | none => simp [normalize_name] at h
  | some s =>
    rw [normalize_name_some_eq] at h
    have h1 := mem_pyStrip h
    rcases mem_collapseWs h1 with h2 | h2
    · refine mem_unidecode_clean ?_ h2
      intro d hd
      exact replChain_stable (fun e he => mem_pyLower_stable he) hd
    · subst h2; exact cleanChar_sp

theorem normalize_name_idem (x : Option Str) :
    normalize_name (some (normalize_name x)) = normalize_name x := by
  cases x with
  | none => rfl
  | some s =>
    have hclean : ∀ c ∈ normalize_name (some s), cleanChar c :=
      fun c hc => normalize_name_clean hc
    have hsp : ∀ c ∈ normalize_name (some s), isPySpace c = true → c = ' ' := by
      intro c hc hs2
      rw [normalize_name_some_eq] at hc
      exact collapseWs_sp (mem_pyStrip hc) hs2
    have hnt : noTwoSp (normalize_name (some s)) = true := by
      rw [normalize_name_some_eq]
      exact noTwoSp_pyStrip (collapseWs_noTwo _)
    have hst : pyStrip (normalize_name (some s)) = normalize_name (some s) := by
      rw [normalize_name_some_eq]
      exact pyStrip_strip _
    rw [normalize_name_some_eq (normalize_name (some s))]
    rw [hst]
    rw [pyLower_eq_self (fun c hc => (hclean c hc).2)]
    rw [replChar_eq_self (fun c hc => (cleanChar_ne_german (hclean c hc)).1)]
    rw [replChar_eq_self (fun c hc => (cleanChar_ne_german (hclean c hc)).2.1)]
    rw [replChar_eq_self (fun c hc => (cleanChar_ne_german (hclean c hc)).2.2.1)]
    rw [replChar_eq_self (fun c hc => (cleanChar_ne_german (hclean c hc)).2.2.2)]
    rw [unidecode_eq_self (fun c hc => cleanChar_ud (hclean c hc))]
    rw [collapseWs_eq_self hsp hnt]
    exact hst

theorem normalize_plz_length (x : Option Str) :
    (normalize_plz x).length = 5 := by
  unfold normalize_plz zfill
  split
  case isTrue h =>
    rw [List.length_take, List.length_append, List.length_replicate]
    omega
  case isFalse h =>
    rw [List.length_take]
    omega

theorem normalize_plz_digits {x : Option Str} {c : Char}
    (h : c ∈ normalize_plz x) : c.isDigit = true := by
  unfold normalize_plz zfill at h
  have h1 := List.mem_of_mem_take h
  split at h1
  case isTrue h2 =>
    rcases List.mem_append.mp h1 with h3 | h3
    · rw [List.eq_of_mem_replicate h3]; rfl
    · exact List.of_mem_filter h3
  case isFalse h2 =>
    exact List.of_mem_filter h1

theorem normalize_plz_idem (x : Option Str) :
    normalize_plz (some (normalize_plz x)) = normalize_plz x := by
  have hd : (normalize_plz x).filter Char.isDigit = normalize_plz x :=
    List.filter_eq_self.mpr (fun c hc => normalize_plz_digits hc)
  have hl := normalize_plz_length x
  show (zfill 5 ((normalize_plz x).filter Char.isDigit)).take 5 = normalize_plz x
  rw [hd]
  unfold zfill
  rw [if_neg (by omega)]
  exact List.take_of_length_le (by omega)

/-! ## Bounds on the address ratio and the per-pair match results -/

theorem addrFrac_nonneg (a b : Rec) : 0 ≤ addrFrac a b := by
  unfold addrFrac
  apply div_nonneg
  · exact_mod_cast Nat.zero_le _
  · positivity

theorem addrAgree_le_considered (a b : Rec) :
    addrAgree a b ≤ addrConsidered a b := by
  unfold addrAgree addrConsidered
  refine List.Sublist.length_le ?_
  refine List.monotone_filter_right _ ?_
  intro p hp
  simp only [decide_eq_true_eq] at hp ⊢
  exact ⟨hp.1, hp.2.1⟩

theorem addrFrac_le_one (a b : Rec) : addrFrac a b ≤ 1 := by
  unfold addrFrac
  rw [div_le_one (by positivity)]
  have h1 : (addrAgree a b : ℚ) ≤ (addrConsidered a b : ℚ) := by
    exact_mod_cast addrAgree_le_considered a b
  have h2 : (addrConsidered a b : ℚ) ≤ max (addrConsidered a b : ℚ) 1 :=
    le_max_left _ _
  linarith

theorem stage1Hit_kind {a b : Rec} {c : ℚ} {k : MKind}
    (h : stage1Hit a b = some (c, k)) :
    (k = MKind.exact_normal ∧ c = 90 + addrFrac a b * 10) ∨
    (k = MKind.exact_swapped ∧ c = 85 + addrFrac a b * 10) := by
  unfold stage1Hit at h
  dsimp only at h
  split at h
  · simp at h
  split at h
  · simp at h
  split at h
  · simp at h
  split at h
  · rw [Option.some.injEq, Prod.mk.injEq] at h
    exact Or.inl ⟨h.2.symm, h.1.symm⟩
  split at h
  · rw [Option.some.injEq, Prod.mk.injEq] at h
    exact Or.inr ⟨h.2.symm, h.1.symm⟩
  · simp at h

theorem stage1Hit_ge85 {a b : Rec} {c : ℚ} {k : MKind}
    (h : stage1Hit a b = some (c, k)) : 85 ≤ c := by
  have hf := addrFrac_nonneg a b
  rcases stage1Hit_kind h with ⟨-, hc⟩ | ⟨-, hc⟩ <;> subst hc <;> linarith

theorem emitGate {ct : ℚ} {X : ℚ × MKind} {c : ℚ} {k : MKind}
    (h : (if ct ≤ X.1 then some X else none) = some (c, k)) :
    ct ≤ c ∧ X = (c, k) := by
  split at h
  case isTrue hct =>
    injection h with h2
    exact ⟨le_of_le_of_eq hct (congrArg Prod.fst h2), h2⟩
  case isFalse => simp at h

theorem stage2Hit_threshold {sim : Str → Str → ℚ} {phon : Str → Str}
    {ct ft : ℚ} {a b : Rec} {c : ℚ} {k : MKind}
    (h : stage2Hit sim phon ct ft a b = some (c, k)) : ct ≤ c := by
  unfold stage2Hit at h
  split at h
  · simp at h
  split at h
  · simp at h
  split at h
  · simp at h
  dsimp only at h
  exact (emitGate h).1

theorem stage2Hit_le95 {sim : Str → Str → ℚ} {phon : Str → Str}
    {ct ft : ℚ} {a b : Rec} {c : ℚ} {k : MKind}
    (h : stage2Hit sim phon ct ft a b = some (c, k)) : c ≤ 95 := by
  have hf1 := addrFrac_le_one a b
  unfold stage2Hit at h
  split at h
  · simp at h
  split at h
  · simp at h
  split at h
  · simp at h
  rename_i bsa heq
  clear heq
  obtain ⟨best, sw, assisted⟩ := bsa
  dsimp only at h
  have h2 := (emitGate h).2
  refine le_of_eq_of_le (congrArg Prod.fst h2).symm ?_
  cases assisted <;> cases sw <;>
    simp only [Bool.false_eq_true, if_true, if_false, ite_true, ite_false]
  · exact min_le_right _ _
  · exact min_le_right _ _
  · linarith
  · linarith

theorem mem_worker_cases {sim : Str → Str → ℚ} {phon : Str → Str}
    {ct ft : ℚ} {block : List (Nat × Rec)} {m : PyMatch}
    (h : m ∈ process_block_worker sim phon ct ft block) :
    (∃ a b, stage1Hit a b = some (m.confidence_score, m.match_type)) ∨
    (∃ a b, stage2Hit sim phon ct ft a b = some (m.confidence_score, m.match_type)) := by
  unfold process_block_worker at h
  split at h
  · simp at h
  rcases List.mem_append.mp h with h1 | h1
  · rw [List.mem_filterMap] at h1
    obtain ⟨p, -, he⟩ := h1
    cases hq : stage1Hit p.1.2.2 p.2.2.2 with
    | none => rw [hq] at he; simp at he
    | some ck =>
      rw [hq] at he
      simp only [Option.map_some', Option.some.injEq] at he
      subst he
      exact Or.inl ⟨p.1.2.2, p.2.2.2, hq⟩
  · rw [List.mem_filterMap] at h1
    obtain ⟨p, -, he⟩ := h1
    split at he
    · simp at he
    cases hq : stage2Hit sim phon ct ft p.1.2.2 p.2.2.2 with
    | none => rw [hq] at he; simp at he
    | some ck =>
      rw [hq] at he
      simp only [Option.map_some', Option.some.injEq] at he
      subst he
      exact Or.inr ⟨p.1.2.2, p.2.2.2, hq⟩

theorem mem_analyze_cases {sim : Str → Str → ℚ} {phon : Str → Str}
    {ct ft : ℚ} {blocks : List (List (Nat × Rec))} {m : PyMatch}
    (h : m ∈ analyze_duplicates sim phon ct ft blocks) :
    (∃ a b, stage1Hit a b = some (m.confidence_score, m.match_type)) ∨
    (∃ a b, stage2Hit sim phon ct ft a b = some (m.confidence_score, m.match_type)) := by
  unfold analyze_duplicates at h
  rw [List.mem_flatMap] at h
  obtain ⟨blk, -, hb⟩ := h
  exact mem_worker_cases hb

/-! ## The date rule as specified and as amended -/

/-- The date rule exactly as the specification words it: the effective
year of a side is the first four-digit substring of `geburtstag` when one
is present (whatever its value), else the parsed `jahrgang`; the rule
passes iff both effective years are present and equal, or both absent. -/
def specDateRule (ga ja gb jb : Option Str) : Bool :=
  let ea := match extract_year ga with
    | some y => some y
    | none => parseJahrgang ja
  let eb := match extract_year gb with
    | some y => some y
    | none => parseJahrgang jb
  match ea, eb with
  | some x, some y => x = y
  | none, none => true
  | _, _ => false

/-- The date rule as amended: a birth-date year of `0` is discarded (the
code tests Python truthiness, not presence), so the effective year is the
birth-date year when present and nonzero, else the parsed `jahrgang`; the
rule passes iff both effective years are present, nonzero and equal, or
both are absent. -/
def amendedDateRule (ga ja gb jb : Option Str) : Bool :=
  let ea := match extract_year ga with
    | some y => if y ≠ 0 then some y else parseJahrgang ja
    | none => parseJahrgang ja
  let eb := match extract_year gb with
    | some y => if y ≠ 0 then some y else parseJahrgang jb
    | none => parseJahrgang jb
  match ea, eb with
  | some x, some y => x ≠ 0 && y ≠ 0 && x = y
  | none, none => true
  | _, _ => false

/-! ## Shared concrete material for the claim theorems -/

/-- A concrete stand-in for the external similarity `fuzz.QRatio(·,·)/100`:
exact equality. -/
def trivSim : Str → Str → ℚ := fun a b => if a = b then 1 else 0

/-- A concrete stand-in similarity that rates every pair at `0.9`. -/
def constSim : Str → Str → ℚ := fun _ _ => 9 / 10

/-- A concrete stand-in for the external Cologne Phonetic coder. -/
def trivPhon : Str → Str := fun _ => []

/-- Record with swapped given/family name relative to `cxB`, with
empty-string address fields. -/
def cxA : Rec :=
  ⟨some ['a','n','n','a'], some ['b','e','r','n'], none,
   some [], some [], some [], some [], none, none⟩

/-- Counterpart of `cxA` with the two name fields transposed. -/
def cxB : Rec :=
  ⟨some ['b','e','r','n'], some ['a','n','n','a'], none,
   some [], some [], some [], some [], none, none⟩

/-- A two-record block whose only pair is an exact swapped match. -/
def cxBlock : List (Nat × Rec) := [(0, cxA), (1, cxB)]

/-- Record pair differing in one letter of the given name (fuzzy tier). -/
def fzC : Rec :=
  ⟨some ['a','n','n','a'], some ['b','e','r','n'], none,
   none, none, none, none, none, none⟩

/-- See `fzC`. -/
def fzD : Rec :=
  ⟨some ['a','n','n','x'], some ['b','e','r','n'], none,
   none, none, none, none, none, none⟩

/-- A two-record block whose only pair is a fuzzy match under `constSim`. -/
def fzBlock : List (Nat × Rec) := [(0, fzC), (1, fzD)]

/-- A record with absent (`NaN`) postal code and street. -/
def noAddrRec : Rec :=
  ⟨some ['h','a','n','s'], some ['w','o','l','f'], none,
   none, none, none, none, none, none⟩

/-- Records for the address-guard witness: the left record has
empty-string address fields, so no address field is comparable. -/
def w10a : Rec :=
  ⟨some ['e','v','a'], some ['r','o','t','h'], none,
   some [], some [], some [], some [], none, none⟩

/-- See `w10a`. -/
def w10b : Rec :=
  ⟨some ['e','v','a'], some ['r','o','t','h'], none,
   none, none, none, none, none, none⟩

/-- `"müllerstrasse"` with the umlaut. -/
def muUmlaut : Str := ['m','ü','l','l','e','r','s','t','r','a','s','s','e']

/-- `"muellerstrasse"`, the `ue`-spelled variant. -/
def muExpanded : Str := ['m','u','e','l','l','e','r','s','t','r','a','s','s','e']

/-! ## Concrete evaluations used by counterexamples and witnesses -/

theorem cxFrac : addrFrac cxA cxB = 0 := by
  unfold addrFrac
  rw [show addrAgree cxA cxB = 0 from by decide,
      show addrConsidered cxA cxB = 0 from by decide]
  norm_num

theorem cxRun_eval : analyze_duplicates trivSim trivPhon 100 (7 / 10) [cxBlock] =
    [PyMatch.mk 0 1 85 MKind.exact_swapped] := by
  have hrun : analyze_duplicates trivSim trivPhon 100 (7 / 10) [cxBlock] =
      [PyMatch.mk 0 1 (85 + addrFrac cxA cxB * 10) MKind.exact_swapped] := rfl
  rw [hrun, cxFrac]
  norm_num

theorem fzCompare : compare_names constSim fzC.Vorname fzC.Name fzD.Vorname fzD.Name =
    ⟨9 / 10, 9 / 10, 9 / 10, false⟩ := by
  unfold compare_names
  simp only [constSim]
  rw [if_neg (by decide)]
  have hv : ((9 : ℚ) / 10 + 9 / 10) / 2 = 9 / 10 := by norm_num
  simp only [hv, max_self, NameScores.mk.injEq]
  exact ⟨trivial, trivial, trivial, decide_eq_false (lt_irrefl _)⟩

theorem fzFrac : addrFrac fzC fzD = 1 := by
  unfold addrFrac
  rw [show addrAgree fzC fzD = 4 from by decide,
      show addrConsidered fzC fzD = 4 from by decide]
  norm_num

theorem fzDecision : stage2Decision constSim trivPhon (7 / 10) fzC fzD =
    some (9 / 10, false, false) := by
  unfold stage2Decision
  dsimp only
  rw [fzCompare]
  dsimp only
  rw [if_neg (by norm_num)]

theorem fzHit : stage2Hit constSim trivPhon 40 (7 / 10) fzC fzD =
    some (75, MKind.fuzzy_normal) := by
  unfold stage2Hit
  rw [if_neg (by decide), if_neg (by decide), fzDecision]
  dsimp only
  rw [fzFrac]
  rw [show min ((9 : ℚ) / 10 * 50 + 1 * 30) 95 = 75 from by norm_num]
  rw [if_pos (by norm_num)]
  rfl

theorem fzWorker : process_block_worker constSim trivPhon 40 (7 / 10) fzBlock =
    [PyMatch.mk 0 1 75 MKind.fuzzy_normal] := by
  have hshape : process_block_worker constSim trivPhon 40 (7 / 10) fzBlock =
      ((stage2Hit constSim trivPhon 40 (7 / 10) fzC fzD).map
        (fun ck => PyMatch.mk 0 1 ck.1 ck.2)).toList := rfl
  rw [hshape, fzHit]
  rfl

theorem fzRun_eval : analyze_duplicates constSim trivPhon 40 (7 / 10) [fzBlock] =
    [PyMatch.mk 0 1 75 MKind.fuzzy_normal] := by
  rw [show analyze_duplicates constSim trivPhon 40 (7 / 10) [fzBlock] =
      process_block_worker constSim trivPhon 40 (7 / 10) fzBlock ++ [] from rfl,
    fzWorker]
  simp

/-! ## Claim theorems -/

/-- C1 (counterexample): with `confidence_threshold = 100` the run on a
block containing one exact-swapped pair still emits a match, with
confidence 85 < 100 — stage 1 applies no threshold check, so the claimed
invariant `confidence ≥ confidence_threshold` fails as stated. -/
theorem C1_counterexample :
    (analyze_duplicates trivSim trivPhon 100 (7 / 10) [cxBlock]).map
        (fun m => (m.confidence_score, m.match_type)) =
      [(85, MKind.exact_swapped)] ∧
    ¬ (100 : ℚ) ≤ 85 := by
  constructor
  · rw [cxRun_eval]
    rfl
  · norm_num

/-- C1 (amended): every emitted match has confidence at least
`min confidence_threshold 85`: stage-2 matches are threshold-checked, and
stage-1 exact matches, though emitted unconditionally, always have
confidence at least 85. -/
theorem C1_threshold_amended (sim : Str → Str → ℚ) (phon : Str → Str)
    (ct ft : ℚ) (blocks : List (List (Nat × Rec))) (m : PyMatch)
    (hm : m ∈ analyze_duplicates sim phon ct ft blocks) :
    min ct 85 ≤ m.confidence_score := by
  rcases mem_analyze_cases hm with ⟨a, b, h1⟩ | ⟨a, b, h2⟩
  · exact le_trans (min_le_right ct 85) (stage1Hit_ge85 h1)
  · exact le_trans (min_le_left ct 85) (stage2Hit_threshold h2)

/-- C1 (witness): the amended bound instantiated on a concrete run. -/
theorem C1_threshold_amended_witness :
    min (100 : ℚ) 85 ≤ (PyMatch.mk 0 1 85 MKind.exact_swapped).confidence_score :=
  C1_threshold_amended trivSim trivPhon 100 (7 / 10) [cxBlock]
    (PyMatch.mk 0 1 85 MKind.exact_swapped)
    (by rw [cxRun_eval]; exact List.mem_singleton_self _)

/-- C2 (code bug): for a record whose `Plz` and `Strasse` are both absent,
the blocking key is `"plz_only_00000"` under BOTH settings of phonetic
blocking — never `"phon_…"` or `"no_address"` — because PLZ normalization
zero-pads the empty string to `"00000"`, making the `no_address` branch
(and with it the whole phonetic fallback) unreachable. -/
theorem C2_blocking_key_bug (phon : Str → Str) (usePhonetic : Bool) :
    blockingKey phon usePhonetic noAddrRec =
      ['p','l','z','_','o','n','l','y','_','0','0','0','0','0'] ∧
    normalize_plz (none : Option Str) = ['0','0','0','0','0'] := by
  have hs : standardBlockingKey noAddrRec =
      ['p','l','z','_','o','n','l','y','_','0','0','0','0','0'] := by decide
  refine ⟨?_, by decide⟩
  cases usePhonetic with
  | false => simpa [blockingKey] using hs
  | true =>
    have hp : phoneticBlockingKey phon noAddrRec =
        ['p','l','z','_','o','n','l','y','_','0','0','0','0','0'] := by
      unfold phoneticBlockingKey
      dsimp only
      rw [hs, if_neg (by decide)]
    simpa [blockingKey] using hp

/-- C3: for a fixed similarity, phonetic coder and configuration, running
the per-block worker over the blocks in any order (the model of parallel
completion order versus sequential order) yields the same multiset — and
hence the same set — of emitted matches. -/
theorem C3_parallel_set_equal (sim : Str → Str → ℚ) (phon : Str → Str)
    (ct ft : ℚ) (blocks blocksPerm : List (List (Nat × Rec)))
    (h : blocks.Perm blocksPerm) :
    (analyze_duplicates sim phon ct ft blocks).Perm
      (analyze_duplicates sim phon ct ft blocksPerm) ∧
    ∀ m, m ∈ analyze_duplicates sim phon ct ft blocks ↔
      m ∈ analyze_duplicates sim phon ct ft blocksPerm := by
  have hp := List.Perm.flatMap_right (process_block_worker sim phon ct ft) h
  exact ⟨hp, fun m => hp.mem_iff⟩

/-- C3 (witness): the equivalence instantiated on two concrete blocks in
the two orders. -/
theorem C3_parallel_set_equal_witness :
    (analyze_duplicates trivSim trivPhon 70 (7 / 10) [cxBlock, fzBlock]).Perm
      (analyze_duplicates trivSim trivPhon 70 (7 / 10) [fzBlock, cxBlock]) :=
  (C3_parallel_set_equal trivSim trivPhon 70 (7 / 10) [cxBlock, fzBlock]
    [fzBlock, cxBlock] (List.Perm.swap fzBlock cxBlock [])).1

/-- C4 (counterexample): with `geburtstag_a = "0000"` (a present four-digit
substring, of value 0) and everything else absent, the code passes the
pair while the claimed rule — effective year is the birth-date year
whenever one is present — fails it. -/
theorem C4_counterexample :
    check_date_rule (some ['0','0','0','0']) none none none = true ∧
    specDateRule (some ['0','0','0','0']) none none none = false ∧
    extract_year (some ['0','0','0','0']) = some 0 := by decide

set_option maxHeartbeats 1000000 in
/-- C4 (amended): the date rule equals the truthiness-aware rule: the
effective year is the birth-date year when present AND nonzero, else the
parsed jahrgang; pass iff both effective years are present, nonzero and
equal, or both absent. -/
theorem C4_date_rule_amended (ga ja gb jb : Option Str) :
    check_date_rule ga ja gb jb = amendedDateRule ga ja gb jb := by
  unfold check_date_rule amendedDateRule
  dsimp only
  cases hya : extract_year ga <;> cases hyb : extract_year gb <;>
    cases hja : parseJahrgang ja <;> cases hjb : parseJahrgang jb <;>
    clear hya hyb hja hjb <;>
    simp only [optTruthy]
  all_goals (
    first
    | rfl
    | (split_ifs <;> simp_all))

/-- C5: the second-name rule, on stripped lower-cased fields, passes
exactly when both `name2` are empty, or both are non-empty and equal, or
exactly one is non-empty and the other side's family name ends with it;
in particular the compound-surname split `Rohner-Stassek / Rohner +
-Stassek` passes. -/
theorem C5_second_name_rule :
    (∀ na n2a nb n2b : Option Str,
      check_zweitname na n2a nb n2b = true ↔
        ((normField n2a = [] ∧ normField n2b = []) ∨
         (normField n2a ≠ [] ∧ normField n2b ≠ [] ∧ normField n2a = normField n2b) ∨
         (normField n2a ≠ [] ∧ normField n2b = [] ∧ normField n2a <:+ normField nb) ∨
         (normField n2b ≠ [] ∧ normField n2a = [] ∧ normField n2b <:+ normField na))) ∧
    check_zweitname (some "Rohner-Stassek".toList) (some [])
      (some "Rohner".toList) (some "-Stassek".toList) = true := by
  constructor
  · intro na n2a nb n2b
    unfold check_zweitname
    dsimp only
    by_cases h2a : normField n2a = [] <;> by_cases h2b : normField n2b = [] <;>
      simp [h2a, h2b, List.isSuffixOf_iff_suffix]
  · decide

/-- C6 (counterexample): street normalization does NOT expand `ü` to `ue`
before diacritic folding, so `"müllerstrasse"` and `"muellerstrasse"` do
not normalize to the same string. -/
theorem C6_counterexample :
    normalize_street (some muUmlaut) ≠ normalize_street (some muExpanded) := by
  decide

/-- C6 (amended): street normalization folds `ü` to `u` (the `ue/ae/oe`
expansion exists only in the fuzzy name normalizer), so
`"müllerstrasse"` becomes `"mullerstrasse"` while `"muellerstrasse"`
stays `"muellerstrasse"`; the name normalizer, by contrast, maps both
spellings to `"muellerstrasse"`. -/
theorem C6_street_umlaut_amended :
    normalize_street (some muUmlaut) =
      ['m','u','l','l','e','r','s','t','r','a','s','s','e'] ∧
    normalize_street (some muExpanded) = muExpanded ∧
    normalize_name (some muUmlaut) = muExpanded ∧
    normalize_name (some muExpanded) = muExpanded := by decide

/-- C7: every emitted match of fuzzy or phonetic-assisted kind has
confidence at most 95. -/
theorem C7_stage2_capped (sim : Str → Str → ℚ) (phon : Str → Str)
    (ct ft : ℚ) (blocks : List (List (Nat × Rec))) (m : PyMatch)
    (hm : m ∈ analyze_duplicates sim phon ct ft blocks)
    (hk : m.match_type = MKind.fuzzy_normal ∨ m.match_type = MKind.fuzzy_swapped ∨
      m.match_type = MKind.phonetic_assisted_normal ∨
      m.match_type = MKind.phonetic_assisted_swapped) :
    m.confidence_score ≤ 95 := by
  rcases mem_analyze_cases hm with ⟨a, b, h1⟩ | ⟨a, b, h2⟩
  · rcases stage1Hit_kind h1 with ⟨hk2, -⟩ | ⟨hk2, -⟩ <;>
      rw [hk2] at hk <;> simp at hk
  · exact stage2Hit_le95 h2

/-- C7 (witness): the cap instantiated on a concrete fuzzy match. -/
theorem C7_stage2_capped_witness :
    (PyMatch.mk 0 1 75 MKind.fuzzy_normal).confidence_score ≤ 95 :=
  C7_stage2_capped constSim trivPhon 40 (7 / 10) [fzBlock]
    (PyMatch.mk 0 1 75 MKind.fuzzy_normal)
    (by rw [fzRun_eval]; exact List.mem_singleton_self _)
    (Or.inl rfl)

/-- C8 (counterexample): street normalization is not idempotent: the input
`"str0x"` first normalizes to `"strx"` (the digit is dropped only after
the suffix pass), and a second application turns `"strx"` into
`"strasse"` via the unescaped `"str.$"` pattern. -/
theorem C8_counterexample :
    normalize_street (some (normalize_street (some ['s','t','r','0','x']))) ≠
      normalize_street (some ['s','t','r','0','x']) := by decide

/-- C8 (amended): the name normalizer and the postal-code normalizer are
idempotent (the street normalizer is not, see the counterexample). -/
theorem C8_idempotent_amended :
    (∀ x : Option Str, normalize_name (some (normalize_name x)) = normalize_name x) ∧
    (∀ x : Option Str, normalize_plz (some (normalize_plz x)) = normalize_plz x) :=
  ⟨normalize_name_idem, normalize_plz_idem⟩

/-- C9 (counterexample): the checker constructor declares
`fuzzy_threshold: float = 0.8`, so constructing without the argument
yields 0.8, not the claimed 0.70. -/
theorem C9_counterexample :
    (mkUltraFastDuplicateChecker : CheckerConfig).fuzzy_threshold = 8 / 10 ∧
    (8 : ℚ) / 10 ≠ 7 / 10 := by
  refine ⟨rfl, by norm_num⟩

/-- C9 (amended): the constructor default of `fuzzy_threshold` is 0.8;
the CLI entry point passes its own argparse default 0.7 explicitly, so
runs started through `run_optimized_analysis.py` use 0.70. -/
theorem C9_defaults_amended :
    (mkUltraFastDuplicateChecker : CheckerConfig).fuzzy_threshold = 8 / 10 ∧
    cliDefaultChecker.fuzzy_threshold = 7 / 10 :=
  ⟨rfl, rfl⟩

/-- C10: when no address field is non-empty on both sides, the guarded
denominator `max(considered, 1)` is 1, the address ratio is exactly 0,
and an exact-normal match scores exactly 90, an exact-swapped match
exactly 85. -/
theorem C10_address_guard (a b : Rec)
    (h : ∀ p ∈ addrPairs a b, p.1 = [] ∨ p.2 = []) :
    addrFrac a b = 0 ∧ addrConsidered a b = 0 ∧
    (∀ c, stage1Hit a b = some (c, MKind.exact_normal) → c = 90) ∧
    (∀ c, stage1Hit a b = some (c, MKind.exact_swapped) → c = 85) := by
  have hc : addrConsidered a b = 0 := by
    unfold addrConsidered
    rw [List.length_eq_zero, List.filter_eq_nil_iff]
    intro p hp
    rcases h p hp with h1 | h1 <;> simp [h1]
  have ha : addrAgree a b = 0 := by
    unfold addrAgree
    rw [List.length_eq_zero, List.filter_eq_nil_iff]
    intro p hp
    rcases h p hp with h1 | h1 <;> simp [h1]
  have hf : addrFrac a b = 0 := by
    unfold addrFrac
    rw [ha]
    norm_num
  refine ⟨hf, hc, ?_, ?_⟩ <;> intro c hs
  · rcases stage1Hit_kind hs with ⟨-, hcv⟩ | ⟨hk, -⟩
    · rw [hcv, hf]; ring
    · exact absurd hk (by simp)
  · rcases stage1Hit_kind hs with ⟨hk, -⟩ | ⟨-, hcv⟩
    · exact absurd hk (by simp)
    · rw [hcv, hf]; ring

/-- C10 (witness): the guard instantiated on records with no comparable
address field, where the exact-normal match indeed scores 90. -/
theorem C10_address_guard_witness :
    addrFrac w10a w10b = 0 ∧
    stage1Hit w10a w10b = some (90, MKind.exact_normal) :=
  ⟨(C10_address_guard w10a w10b (by decide)).1, by
    rw [show stage1Hit w10a w10b =
        some (90 + addrFrac w10a w10b * 10, MKind.exact_normal) from rfl,
      (C10_address_guard w10a w10b (by decide)).1]
    norm_num⟩

end Dub
